import Mathlib

/-!
Verification development for the heap-snapshot analysis module
(`lib/mem_analysis.js`): a snapshot decoder / graph indexer
(`handleHeapData`), a bounded leak-candidate ranker (`peakLeakPoint`)
and the composing entry point (`fetchHeapUsage`).

Modelling conventions (shallow embedding of the JavaScript source):
* Raw snapshot numeric arrays (`nodes`, `edges`) hold nonnegative
  integers in every real capture; they are modelled as `List Nat`.
  Engine-produced metric arrays (retained sizes, distances) may be
  negative and are modelled as `List Int`.
* JavaScript `Array.prototype.slice(a, b)` clamps its bounds; this is
  modelled exactly by `List.drop`/`List.take`.
* An out-of-range JavaScript array read yields `undefined`.  Where the
  source immediately interpolates the value into a template string
  (`` `@${x}` ``), the model returns the string the source would build
  from `undefined`; where the source stores the raw value, the model
  substitutes a default (`0` / `"undefined"`), and every theorem that
  could observe the difference carries hypotheses keeping the reads in
  range.
* The external analysis engine (`HeapSnapshotWorker.JSHeapSnapshot`,
  required from outside this repository) is out of scope per the spec;
  its outputs (`_retainedSizes`, `_nodeDistances`) are passed to the
  model as explicit list parameters, and the opaque pass-through fields
  (`_statistics`, `_aggregates`) are omitted from the accumulator.
-/

/-- Edge-type enumeration from v8-profiler.h, as in the source header.
Only `kElement` and `kHidden` are consulted by the decoder. -/
def HeapGraphEdgeType.kElement : Nat := 1

/-- Hidden-link edge type constant (v8-profiler.h `kHidden`). -/
def HeapGraphEdgeType.kHidden : Nat := 4

/-- A decoded outgoing edge (`desc_node_edge` in the source). -/
structure Edge where
  index : Nat
  type : String
  name_or_index : String
  to_node : String
deriving DecidableEq, Inhabited

/-- A decoded node (`desc_node` in the source).  `retainedSize` and
`distance` are the properties the ranker later attaches to the node
object; absence of the JavaScript property is modelled by `none`. -/
structure Node where
  index : Nat
  type : String
  name : String
  id : String
  self_size : Nat
  retain_size : Nat
  edge_count : Nat
  trace_node_id : Nat
  children : List Edge
  retainedSize : Option Int := none
  distance : Option Int := none
deriving DecidableEq, Inhabited

/-- One entry of `edgesMap`'s `from_ids`/`to_ids` lists
(`from_address_info` / `to_address_info` in the source). -/
structure AddressInfo where
  id : String
  type : String
  name_or_index : String
deriving DecidableEq, Inhabited

/-- The value stored for one key of `edgesMap`. -/
structure EdgeInfo where
  from_ids : List AddressInfo
  to_ids : List AddressInfo
deriving DecidableEq, Inhabited

/-- Snapshot self-describing metadata (`snapshot.meta`).  The source
reads `node_types[0]` and `edge_types[0]` (the enumeration tables);
the remaining heterogeneous entries of the real format are irrelevant
to it, so the tables are modelled as lists of string lists. -/
structure SnapshotMeta where
  node_fields : List String
  node_types : List (List String)
  edge_fields : List String
  edge_types : List (List String)
deriving DecidableEq, Inhabited

/-- The `snapshot` block of the raw capture.  `root_index` is optional
(`heapData.snapshot.root_index || 0` in the source). -/
structure Snapshot where
  meta : SnapshotMeta
  root_index : Option Nat := none
deriving DecidableEq, Inhabited

/-- The raw capture object handed to `handleHeapData`. -/
structure HeapData where
  snapshot : Snapshot
  nodes : List Nat
  edges : List Nat
  strings : List String
deriving DecidableEq, Inhabited

/-- Result of `handleHeapData`.  `heapMap` is the object keyed by node
index; a key never written maps to `none`. -/
structure HeapGraph where
  heapMap : Nat → Option Node
  heapArray : List Node
  edgesMap : String → EdgeInfo
  rootID : String
  rootIndex : Nat

/-- Template interpolation of a possibly missing array element:
`` `@${nodes[k]}` `` yields `"@undefined"` when the read is out of
range. -/
def atString (nodes : List Nat) (k : Nat) : String :=
  match nodes.get? k with
  | some v => "@" ++ toString v
  | none => "@undefined"

/-- The strides visited by the source's `for` loop
`for (i = 0; i < l.length; i += stride) l.slice(i, i + stride)`:
one chunk per iteration, the last one possibly short.  For
`stride = 0` the JavaScript loop never terminates; the model returns
`[]` there (Nat division by zero), a case excluded by every claim
(it needs an empty `node_fields`/`edge_fields` declaration). -/
def sliceStrides (stride : Nat) (l : List Nat) : List (List Nat) :=
  (List.range ((l.length + stride - 1) / stride)).map
    (fun k => (l.drop (k * stride)).take stride)

/-- Appends an entry to the `from_ids` list of one `edgesMap` key.
JavaScript lazily creates `{from_ids: [], to_ids: []}` on first touch;
the model makes absent keys read as the empty entry, which is
observationally identical. -/
def pushFromInfo (em : String → EdgeInfo) (key : String) (info : AddressInfo) :
    String → EdgeInfo :=
  fun k => if k = key
    then { em key with from_ids := (em key).from_ids ++ [info] }
    else em k

/-- Appends an entry to the `to_ids` list of one `edgesMap` key. -/
def pushToInfo (em : String → EdgeInfo) (key : String) (info : AddressInfo) :
    String → EdgeInfo :=
  fun k => if k = key
    then { em key with to_ids := (em key).to_ids ++ [info] }
    else em k

/-- Decodes one raw edge record (`node_edge` in the source): type via
`edge_types[0]`, the element/hidden bracket rule for the label, target
index as `node_edge[2] / node_fields.length` (exact in valid captures)
and target identity `` `@${nodes[node_edge[2] + 2]}` ``. -/
def decodeEdge (strings : List String) (edge_types0 : List String)
    (node_fields_length : Nat) (nodes : List Nat) (node_edge : List Nat) : Edge :=
  let name_or_index :=
    if node_edge.getD 0 0 = HeapGraphEdgeType.kElement ∨
        node_edge.getD 0 0 = HeapGraphEdgeType.kHidden
    then "[" ++ toString (node_edge.getD 1 0) ++ "]"
    else strings.getD (node_edge.getD 1 0) "undefined"
  { index := node_edge.getD 2 0 / node_fields_length
    type := edge_types0.getD (node_edge.getD 0 0) "undefined"
    name_or_index := name_or_index
    to_node := atString nodes (node_edge.getD 2 0 + 2) }

/-- One iteration of the source's inner edge loop: decode the edge,
append it to the owning node's `children`, and register both directions
in `edgesMap`. -/
def edgeStep (strings : List String) (edge_types0 : List String)
    (node_fields_length : Nat) (nodes : List Nat) (ownerId : String)
    (st : List Edge × (String → EdgeInfo)) (node_edge : List Nat) :
    List Edge × (String → EdgeInfo) :=
  let e := decodeEdge strings edge_types0 node_fields_length nodes node_edge
  let em := pushFromInfo st.2 e.to_node
    { id := ownerId, type := e.type, name_or_index := e.name_or_index }
  let em := pushToInfo em ownerId
    { id := e.to_node, type := e.type, name_or_index := e.name_or_index }
  (st.1 ++ [e], em)

/-- Mutable state of the source's outer node loop: the running edge
cursor `offset`, the loop variable `i`, and the three accumulators. -/
structure DecodeState where
  offset : Nat
  i : Nat
  heapMap : Nat → Option Node
  heapArray : List Node
  edgesMap : String → EdgeInfo

/-- Builds `desc_node` from one stride `node` of the flat array: the
source reads the fields at the fixed positions 0..5 (type via
`node_types[0]`, name via the string table, identity
`` `@${node[2]}` ``, numeric self size, edge count, trace id). -/
def decodeNode (strings node_types0 : List String) (descIndex : Nat)
    (node : List Nat) (children : List Edge) : Node :=
  { index := descIndex
    type := node_types0.getD (node.getD 0 0) "undefined"
    name := strings.getD (node.getD 1 0) "undefined"
    id := atString node 2
    self_size := node.getD 3 0
    retain_size := node.getD 3 0
    edge_count := node.getD 4 0
    trace_node_id := node.getD 5 0
    children := children }

/-- One iteration of the source's outer node loop over a stride
`node` of the flat `nodes` array: slice this node's edge sub-range
(clamped, as `Array.slice` clamps), decode its edges, build
`desc_node`, store it in `heapMap`/`heapArray` and advance `offset` by
the full declared span `edge_count * edge_fields.length`. -/
def processNode (strings : List String) (node_types0 edge_types0 : List String)
    (node_fields_length edge_fields_length : Nat) (nodes edges : List Nat)
    (st : DecodeState) (node : List Nat) : DecodeState :=
  let edge_count := node.getD 4 0
  let node_edges := (edges.drop st.offset).take (edge_count * edge_fields_length)
  let inner := (sliceStrides edge_fields_length node_edges).foldl
    (edgeStep strings edge_types0 node_fields_length nodes (atString node 2))
    ([], st.edgesMap)
  let desc_node : Node :=
    decodeNode strings node_types0 (st.i / node_fields_length) node inner.1
  { offset := st.offset + edge_count * edge_fields_length
    i := st.i + node_fields_length
    heapMap := fun k => if k = desc_node.index then some desc_node else st.heapMap k
    heapArray := st.heapArray ++ [desc_node]
    edgesMap := inner.2 }

/-- The snapshot decoder / graph indexer `handleHeapData` of the
source: determine `rootIndex`/`rootID`, then run the node loop over the
flat `nodes` array. -/
def handleHeapData (heapData : HeapData) : HeapGraph :=
  let rootIndex := heapData.snapshot.root_index.getD 0
  let rootID := atString heapData.nodes (rootIndex + 2)
  let meta := heapData.snapshot.meta
  let final := (sliceStrides meta.node_fields.length heapData.nodes).foldl
    (processNode heapData.strings (meta.node_types.getD 0 [])
      (meta.edge_types.getD 0 []) meta.node_fields.length
      meta.edge_fields.length heapData.nodes heapData.edges)
    { offset := 0, i := 0, heapMap := fun _ => none, heapArray := []
      edgesMap := fun _ => { from_ids := [], to_ids := [] } }
  { heapMap := final.heapMap
    heapArray := final.heapArray
    edgesMap := final.edgesMap
    rootID := rootID
    rootIndex := rootIndex }

/-- A ranked leak candidate (`{index, id, size}` in the source). -/
structure LeakCandidate where
  index : Nat
  id : String
  size : Int
deriving DecidableEq, Inhabited

/-- The reduce accumulator `pre` of `peakLeakPoint`.  The engine
pass-through fields `statistics`/`aggregates` (held by the external
`JSHeapSnapshot`) carry no logic and are omitted. -/
structure RankAcc where
  leakPoint : List LeakCandidate
  length : Nat
deriving DecidableEq, Inhabited

/-- Reads `heapMap[index].id`; an absent node (which would make the
source throw before reaching any read) is modelled by `"undefined"`. -/
def heapMapId (heapMap : Nat → Option Node) (index : Nat) : String :=
  match heapMap index with
  | some nd => nd.id
  | none => "undefined"

/-- The source's in-place
`sort((o, n) => Number(o.size) < Number(n.size) ? 1 : -1)`: with this
comparator the V8 sort produces a weakly size-descending permutation
(tie order implementation-defined); it is modelled by a structural
stable sort under the relation the comparator decides,
`o before n unless o.size < n.size`.  Every theorem below uses only the
permutation and sortedness of the result. -/
def sortLeakPoint (l : List LeakCandidate) : List LeakCandidate :=
  l.insertionSort (fun o n => n.size ≤ o.size)

/-- Annotation side effect `heapMap[index].retainedSize = next;`
`heapMap[index].distance = distancesList[index]` of one reduce
iteration. -/
def annotateHeapMap (heapMap : Nat → Option Node) (index : Nat)
    (next d : Int) : Nat → Option Node :=
  fun k => if k = index
    then (heapMap index).map
      (fun nd => { nd with retainedSize := some next, distance := some d })
    else heapMap k

/-- One iteration of the `retainedSizeList.reduce` body in
`peakLeakPoint`, over the pair `(index, next)`.  The out-of-range
distance read (`NaN` in JavaScript, which fails both filter
comparisons) is modelled by the default `2`, which also fails both;
every aligned input never takes that default. -/
def rankStep (rootIndex : Nat) (distancesList : List Int) (limit : Nat)
    (st : RankAcc × (Nat → Option Node)) (p : Nat × Int) :
    RankAcc × (Nat → Option Node) :=
  let index := p.1
  let next := p.2
  let d := distancesList.getD index 2
  let heapMap := annotateHeapMap st.2 index next d
  let pre := st.1
  if index = rootIndex then (pre, heapMap)
  else if d ≤ 1 ∨ 100000000 ≤ d then (pre, heapMap)
  else if pre.length < limit then
    ({ leakPoint := pre.leakPoint ++
        [{ index := index, id := heapMapId heapMap index, size := next }]
       length := pre.length + 1 }, heapMap)
  else
    let sorted := sortLeakPoint pre.leakPoint
    if (sorted.getD (sorted.length - 1) default).size < next then
      ({ pre with leakPoint := sorted.dropLast ++
          [{ index := index, id := heapMapId heapMap index, size := next }] },
        heapMap)
    else ({ pre with leakPoint := sorted }, heapMap)

/-- The leak ranker `peakLeakPoint`: default the falsy limit to 5, then
reduce over the engine's retained-size list with the running index.
The engine call itself (`new HeapSnapshotWorker.JSHeapSnapshot`) is the
external collaborator; its two metric arrays are the parameters
`retainedSizeList`/`distancesList`.  The second component is the
`heapMap` after the annotation side effects. -/
def peakLeakPoint (rootIndex : Nat) (retainedSizeList distancesList : List Int)
    (heapMap : Nat → Option Node) (limit : Nat) :
    RankAcc × (Nat → Option Node) :=
  let lim := if limit = 0 then 5 else limit
  retainedSizeList.enum.foldl (rankStep rootIndex distancesList lim)
    ({ leakPoint := [], length := 0 }, heapMap)

/-- The report assembled by the main entry point. -/
structure HeapUsageReport where
  heapMap : Nat → Option Node
  leakPoint : List LeakCandidate
  rootIndex : Nat

/-- The main entry point `fetchHeapUsage`: decode, rank, assemble.
The engine metric arrays are explicit parameters (see
`peakLeakPoint`); the opaque `statistics`/`aggregates` pass-through is
omitted. -/
def fetchHeapUsage (heapData : HeapData)
    (retainedSizeList distancesList : List Int) (limit : Nat) :
    HeapUsageReport :=
  let g := handleHeapData heapData
  let r := peakLeakPoint g.rootIndex retainedSizeList distancesList g.heapMap limit
  { heapMap := r.2, leakPoint := r.1.leakPoint, rootIndex := g.rootIndex }

/-! ## General fold infrastructure -/

/-- A property of the accumulator preserved by every step holds of the
whole fold. -/
theorem foldl_preserves {α β : Type _} (P : β → Prop) (f : β → α → β)
    (l : List α) (init : β) (h0 : P init)
    (hstep : ∀ b a, P b → P (f b a)) : P (l.foldl f init) := by
  induction l generalizing init with
  | nil => exact h0
  | cons a l ih => exact ih (f init a) (hstep init a h0)

/-! ## Ranker step lemmas -/

/-- Annotating a node with retained size and distance never changes any
node identity read through `heapMapId`. -/
theorem heapMapId_annotate (hm : Nat → Option Node) (i : Nat) (n d : Int)
    (j : Nat) : heapMapId (annotateHeapMap hm i n d) j = heapMapId hm j := by
  unfold heapMapId annotateHeapMap
  by_cases h : j = i
  · subst h
    cases hm j <;> simp
  · simp [h]

/-- The reduce body on the root index: only the annotation happens. -/
theorem rankStep_root (rootIndex : Nat) (ds : List Int) (lim : Nat)
    (st : RankAcc × (Nat → Option Node)) (p : Nat × Int)
    (h : p.1 = rootIndex) :
    rankStep rootIndex ds lim st p =
      (st.1, annotateHeapMap st.2 p.1 p.2 (ds.getD p.1 2)) := by
  simp [rankStep, h]

/-- The reduce body on a distance-filtered index: only the annotation
happens. -/
theorem rankStep_filtered (rootIndex : Nat) (ds : List Int) (lim : Nat)
    (st : RankAcc × (Nat → Option Node)) (p : Nat × Int)
    (h1 : p.1 ≠ rootIndex)
    (h2 : ds.getD p.1 2 ≤ 1 ∨ 100000000 ≤ ds.getD p.1 2) :
    rankStep rootIndex ds lim st p =
      (st.1, annotateHeapMap st.2 p.1 p.2 (ds.getD p.1 2)) := by
  simp only [rankStep]
  rw [if_neg h1, if_pos h2]

/-- The reduce body while the working list still has room: the
candidate is appended and the counter incremented. -/
theorem rankStep_append (rootIndex : Nat) (ds : List Int) (lim : Nat)
    (st : RankAcc × (Nat → Option Node)) (p : Nat × Int)
    (h1 : p.1 ≠ rootIndex)
    (h2 : ¬(ds.getD p.1 2 ≤ 1 ∨ 100000000 ≤ ds.getD p.1 2))
    (h3 : st.1.length < lim) :
    rankStep rootIndex ds lim st p =
      ({ leakPoint := st.1.leakPoint ++
          [{ index := p.1, id := heapMapId st.2 p.1, size := p.2 }]
         length := st.1.length + 1 },
        annotateHeapMap st.2 p.1 p.2 (ds.getD p.1 2)) := by
  simp only [rankStep, heapMapId_annotate]
  rw [if_neg h1, if_neg h2, if_pos h3]

/-- The reduce body once the working list is full: re-sort, then evict
the sorted list's last element exactly when the incoming size is
strictly greater. -/
theorem rankStep_full (rootIndex : Nat) (ds : List Int) (lim : Nat)
    (st : RankAcc × (Nat → Option Node)) (p : Nat × Int)
    (h1 : p.1 ≠ rootIndex)
    (h2 : ¬(ds.getD p.1 2 ≤ 1 ∨ 100000000 ≤ ds.getD p.1 2))
    (h3 : ¬ st.1.length < lim) :
    rankStep rootIndex ds lim st p =
      (if ((sortLeakPoint st.1.leakPoint).getD
            ((sortLeakPoint st.1.leakPoint).length - 1) default).size < p.2
       then ({ st.1 with leakPoint := (sortLeakPoint st.1.leakPoint).dropLast ++
                [{ index := p.1, id := heapMapId st.2 p.1, size := p.2 }] },
              annotateHeapMap st.2 p.1 p.2 (ds.getD p.1 2))
       else ({ st.1 with leakPoint := sortLeakPoint st.1.leakPoint },
              annotateHeapMap st.2 p.1 p.2 (ds.getD p.1 2))) := by
  simp only [rankStep, if_neg h1, if_neg h2, if_neg h3, heapMapId_annotate]

/-! ## Sort lemmas -/

instance : IsTotal LeakCandidate (fun a b => b.size ≤ a.size) :=
  ⟨fun a b => le_total b.size a.size⟩

instance : IsTrans LeakCandidate (fun a b => b.size ≤ a.size) :=
  ⟨fun _ _ _ h1 h2 => le_trans h2 h1⟩

/-- The modelled sort is a permutation of its input. -/
theorem sortLeakPoint_perm (l : List LeakCandidate) :
    (sortLeakPoint l).Perm l :=
  List.perm_insertionSort _ _

/-- The modelled sort is weakly descending by size. -/
theorem sortLeakPoint_pairwise (l : List LeakCandidate) :
    (sortLeakPoint l).Pairwise (fun a b => b.size ≤ a.size) :=
  List.sorted_insertionSort _ l

/-- In a weakly size-descending list, the last element (as the source
reads it, `l[l.length - 1]`) is a member of minimal size. -/
theorem getD_last_min (l : List LeakCandidate) (hne : l ≠ [])
    (hp : l.Pairwise (fun a b => b.size ≤ a.size)) :
    l.getD (l.length - 1) default ∈ l ∧
      ∀ c ∈ l, (l.getD (l.length - 1) default).size ≤ c.size := by
  induction l with
  | nil => exact absurd rfl hne
  | cons a t ih =>
    obtain ⟨ha, hpt⟩ := List.pairwise_cons.mp hp
    by_cases ht : t = []
    · subst ht
      refine ⟨List.mem_singleton_self a, ?_⟩
      intro c hc
      rw [List.mem_singleton.mp hc]
      simp
    · have hlen : (a :: t).length - 1 = (t.length - 1) + 1 := by
        have := List.length_pos.mpr ht
        simp only [List.length_cons]
        omega
      obtain ⟨hmem, hmin⟩ := ih ht hpt
      rw [hlen, List.getD_cons_succ]
      refine ⟨List.mem_cons_of_mem a hmem, ?_⟩
      intro c hc
      rcases List.mem_cons.mp hc with hc | hc
      · exact hc ▸ ha _ hmem
      · exact hmin c hc

/-! ## Example capture used by concrete witnesses -/

/-- Standard self-describing metadata block (the layout every V8 heap
snapshot declares, with small enumeration tables). -/
def exMeta : SnapshotMeta :=
  { node_fields := ["type", "name", "id", "self_size", "edge_count", "trace_node_id"]
    node_types := [["synthetic", "object"]]
    edge_fields := ["type", "name_or_index", "to_node"]
    edge_types := [["context", "element", "property", "internal", "hidden", "shortcut", "weak"]] }

/-- A three-node capture: the root (id `@1`) points at two objects
(ids `@2`, `@3`) through named properties. -/
def exHD : HeapData :=
  { snapshot := { meta := exMeta }
    nodes := [0, 0, 1, 0, 2, 0, 1, 1, 2, 10, 0, 0, 1, 2, 3, 1000, 0, 0]
    edges := [2, 1, 6, 2, 2, 12]
    strings := ["root", "a", "b"] }

/-- Claim C10: a falsy `limit` argument (0 or omitted) makes the
ranking use the default limit of 5, both through `peakLeakPoint` and
through the main entry point `fetchHeapUsage`; in particular, calling
with `limit = 0` can return up to 5 leak candidates (here 2), not an
empty list. -/
theorem falsy_limit_defaults_to_five :
    (∀ (hd : HeapData) (rs ds : List Int),
      fetchHeapUsage hd rs ds 0 = fetchHeapUsage hd rs ds 5) ∧
    (∀ (r : Nat) (rs ds : List Int) (hm : Nat → Option Node),
      peakLeakPoint r rs ds hm 0 = peakLeakPoint r rs ds hm 5) ∧
    (fetchHeapUsage exHD [100, 10, 1000] [0, 2, 2] 0).leakPoint.length = 2 :=
  ⟨fun _ _ _ => rfl, fun _ _ _ _ => rfl, by decide⟩

/-- Claim C1: with engine arrays index-aligned with the graph and a
nonzero limit, the candidate list produced by `peakLeakPoint` has
length at most `limit`, never contains the root index, and never
contains an entry whose distance is ≤ 1 or ≥ 10^8. -/
theorem rank_limit_root_distance (rootIndex : Nat) (rs ds : List Int)
    (hm : Nat → Option Node) (limit : Nat) (hl : limit ≠ 0)
    (halign : ds.length = rs.length)
    (hgraph : ∀ i, i < rs.length → (hm i).isSome = true) :
    ((peakLeakPoint rootIndex rs ds hm limit).1.leakPoint.length ≤ limit) ∧
    ∀ c ∈ (peakLeakPoint rootIndex rs ds hm limit).1.leakPoint,
      c.index ≠ rootIndex ∧ 1 < ds.getD c.index 2 ∧
        ds.getD c.index 2 < 100000000 := by
  have hlim : (if limit = 0 then 5 else limit) = limit := if_neg hl
  have hpos : 0 < limit := Nat.pos_of_ne_zero hl
  have key := foldl_preserves
    (fun st : RankAcc × (Nat → Option Node) =>
      st.1.length = st.1.leakPoint.length ∧ st.1.leakPoint.length ≤ limit ∧
      ∀ c ∈ st.1.leakPoint, c.index ≠ rootIndex ∧ 1 < ds.getD c.index 2 ∧
        ds.getD c.index 2 < 100000000)
    (rankStep rootIndex ds limit) rs.enum
    ({ leakPoint := [], length := 0 }, hm)
    ⟨rfl, by simp, by simp⟩ ?step
  case step =>
    rintro b p ⟨ih1, ih2, ih3⟩
    by_cases hroot : p.1 = rootIndex
    · rw [rankStep_root _ _ _ _ _ hroot]
      exact ⟨ih1, ih2, ih3⟩
    by_cases hfil : ds.getD p.1 2 ≤ 1 ∨ 100000000 ≤ ds.getD p.1 2
    · rw [rankStep_filtered _ _ _ _ _ hroot hfil]
      exact ⟨ih1, ih2, ih3⟩
    have hfil' := hfil
    push_neg at hfil'
    obtain ⟨hf1, hf2⟩ := hfil'
    by_cases hlt : b.1.length < limit
    · rw [rankStep_append _ _ _ _ _ hroot hfil hlt]
      refine ⟨by simp [ih1], by simp; omega, ?_⟩
      intro c hc
      rcases List.mem_append.mp hc with hc | hc
      · exact ih3 c hc
      · rw [List.mem_singleton.mp hc]
        exact ⟨hroot, hf1, hf2⟩
    · rw [rankStep_full _ _ _ _ _ hroot hfil hlt]
      have hperm := sortLeakPoint_perm b.1.leakPoint
      have hlensort := hperm.length_eq
      have hfull : b.1.leakPoint.length = limit := by omega
      split_ifs with hevict
      · have hne : sortLeakPoint b.1.leakPoint ≠ [] := by
          have : (sortLeakPoint b.1.leakPoint).length = limit := by omega
          exact List.ne_nil_of_length_pos (by omega)
        refine ⟨?_, ?_, ?_⟩
        · simp [List.length_dropLast]
          omega
        · simp [List.length_dropLast]
          omega
        · intro c hc
          rcases List.mem_append.mp hc with hc | hc
          · exact ih3 c (hperm.mem_iff.mp ((List.dropLast_sublist _).subset hc))
          · rw [List.mem_singleton.mp hc]
            exact ⟨hroot, hf1, hf2⟩
      · refine ⟨?_, ?_, ?_⟩
        · show b.1.length = (sortLeakPoint b.1.leakPoint).length
          omega
        · show (sortLeakPoint b.1.leakPoint).length ≤ limit
          omega
        · intro c hc
          exact ih3 c (hperm.mem_iff.mp hc)
  rw [show peakLeakPoint rootIndex rs ds hm limit =
    rs.enum.foldl (rankStep rootIndex ds limit)
      ({ leakPoint := [], length := 0 }, hm) from by
    simp only [peakLeakPoint, hlim]]
  exact ⟨key.2.1, key.2.2⟩

/-- Witness for C1 at a concrete aligned input. -/
theorem rank_limit_root_distance_witness :
    ((peakLeakPoint 0 [100, 10, 1000] [0, 2, 2]
        (handleHeapData exHD).heapMap 5).1.leakPoint.length ≤ 5) ∧
    ∀ c ∈ (peakLeakPoint 0 [100, 10, 1000] [0, 2, 2]
        (handleHeapData exHD).heapMap 5).1.leakPoint,
      c.index ≠ 0 ∧ 1 < ([0, 2, 2] : List Int).getD c.index 2 ∧
        ([0, 2, 2] : List Int).getD c.index 2 < 100000000 :=
  rank_limit_root_distance 0 [100, 10, 1000] [0, 2, 2]
    (handleHeapData exHD).heapMap 5 (by decide) (by decide) (by decide)

/-- The source's read `l[l.length - 1]` of a nonempty list is its last
element. -/
theorem getD_last_eq_getLast (l : List LeakCandidate) (h : l ≠ []) :
    l.getD (l.length - 1) default = l.getLast h := by
  induction l with
  | nil => exact absurd rfl h
  | cons a t ih =>
    by_cases ht : t = []
    · subst ht
      simp
    · have hlen : (a :: t).length - 1 = (t.length - 1) + 1 := by
        have := List.length_pos.mpr ht
        simp only [List.length_cons]
        omega
      rw [hlen, List.getD_cons_succ, List.getLast_cons ht]
      exact ih ht

/-- Claim C3: once the working list is full (`length = limit`), an
incoming candidate whose size does not exceed the current minimum `m`
evicts nothing — the result is a permutation of the previous entries,
so every earlier-seen node (in particular one of size equal to `m`) is
retained; only a strictly greater size evicts, and then exactly one
entry of minimal size is dropped in favour of the newcomer. -/
theorem rank_tie_keeps_earlier (rootIndex : Nat) (ds : List Int) (lim : Nat)
    (st : RankAcc × (Nat → Option Node)) (index : Nat) (next m : Int)
    (hfull : st.1.length = lim) (hlen : st.1.leakPoint.length = lim)
    (hpos : 0 < lim) (hroot : index ≠ rootIndex)
    (hd : ¬(ds.getD index 2 ≤ 1 ∨ 100000000 ≤ ds.getD index 2))
    (hmem : ∃ c ∈ st.1.leakPoint, c.size = m)
    (hmin : ∀ c ∈ st.1.leakPoint, m ≤ c.size) :
    (next ≤ m →
      ((rankStep rootIndex ds lim st (index, next)).1.leakPoint).Perm
        st.1.leakPoint) ∧
    (m < next → ∃ dropped ∈ st.1.leakPoint, dropped.size = m ∧
      ((rankStep rootIndex ds lim st (index, next)).1.leakPoint).Perm
        ({ index := index, id := heapMapId st.2 index, size := next } ::
          st.1.leakPoint.erase dropped)) := by
  have hnotlt : ¬ st.1.length < lim := by omega
  rw [rankStep_full _ _ _ _ _ hroot hd hnotlt]
  simp only []
  have hperm := sortLeakPoint_perm st.1.leakPoint
  have hpair := sortLeakPoint_pairwise st.1.leakPoint
  have hne : sortLeakPoint st.1.leakPoint ≠ [] :=
    List.ne_nil_of_length_pos (by rw [hperm.length_eq]; omega)
  obtain ⟨hLmem, hLmin⟩ := getD_last_min (sortLeakPoint st.1.leakPoint) hne hpair
  have hlast_mem_pre :
      (sortLeakPoint st.1.leakPoint).getD
        ((sortLeakPoint st.1.leakPoint).length - 1) default ∈ st.1.leakPoint :=
    hperm.mem_iff.mp hLmem
  have hlast_size :
      ((sortLeakPoint st.1.leakPoint).getD
        ((sortLeakPoint st.1.leakPoint).length - 1) default).size = m := by
    obtain ⟨c0, hc0mem, hc0size⟩ := hmem
    have h1 := hmin _ hlast_mem_pre
    have h2 := hLmin c0 (hperm.mem_iff.mpr hc0mem)
    omega
  constructor
  · intro hle
    rw [if_neg (by omega)]
    exact hperm
  · intro hlt
    rw [if_pos (by omega)]
    refine ⟨_, hlast_mem_pre, hlast_size, ?_⟩
    have hdlast : (sortLeakPoint st.1.leakPoint).dropLast ++
        [(sortLeakPoint st.1.leakPoint).getD
          ((sortLeakPoint st.1.leakPoint).length - 1) default] =
        sortLeakPoint st.1.leakPoint := by
      rw [getD_last_eq_getLast _ hne]
      exact List.dropLast_append_getLast hne
    have h1 : (sortLeakPoint st.1.leakPoint).Perm
        ((sortLeakPoint st.1.leakPoint).getD
          ((sortLeakPoint st.1.leakPoint).length - 1) default ::
          (sortLeakPoint st.1.leakPoint).dropLast) := by
      conv_lhs => rw [← hdlast]
      exact List.perm_append_singleton _ _
    have h2 := List.Perm.erase
      ((sortLeakPoint st.1.leakPoint).getD
        ((sortLeakPoint st.1.leakPoint).length - 1) default) hperm.symm
    have h3 := List.Perm.erase
      ((sortLeakPoint st.1.leakPoint).getD
        ((sortLeakPoint st.1.leakPoint).length - 1) default) h1
    rw [List.erase_cons_head] at h3
    exact (List.perm_append_singleton _ _).trans ((h2.trans h3).symm.cons _)

/-- Witness for C3: a full one-slot list holding size 5; an incoming
tied size 5 leaves the entry in place. -/
theorem rank_tie_keeps_earlier_witness :
    ((rankStep 0 [0, 2, 2] 1
        ({ leakPoint := [{ index := 1, id := "x", size := 5 }], length := 1 },
          fun _ => none) (2, 5)).1.leakPoint).Perm
      [{ index := 1, id := "x", size := 5 }] :=
  (rank_tie_keeps_earlier 0 [0, 2, 2] 1
      ({ leakPoint := [{ index := 1, id := "x", size := 5 }], length := 1 },
        fun _ => none) 2 5 5 rfl rfl (by decide) (by decide) (by decide)
      ⟨{ index := 1, id := "x", size := 5 }, by decide, rfl⟩
      (by decide)).1 (le_refl 5)

/-! ## Claim C2: ordering of the returned candidate list -/

/-- A reduce input `(index, next)` survives the ranker's root and
distance filters. -/
def passesFilters (rootIndex : Nat) (ds : List Int) (p : Nat × Int) : Bool :=
  !(p.1 == rootIndex) &&
    !(decide (ds.getD p.1 2 ≤ 1) || decide (100000000 ≤ ds.getD p.1 2))

/-- The candidate record the ranker builds for a surviving input. -/
def candidateOf (hm : Nat → Option Node) (p : Nat × Int) : LeakCandidate :=
  { index := p.1, id := heapMapId hm p.1, size := p.2 }

/-- Annotation does not change the candidate built from a map. -/
theorem candidateOf_annotate (hm : Nat → Option Node) (i : Nat) (n d : Int) :
    candidateOf (annotateHeapMap hm i n d) = candidateOf hm :=
  funext fun p => by simp [candidateOf, heapMapId_annotate]

/-- Boolean filter unfolding. -/
theorem passesFilters_iff (rootIndex : Nat) (ds : List Int) (p : Nat × Int) :
    passesFilters rootIndex ds p = true ↔
      (p.1 ≠ rootIndex ∧
        ¬(ds.getD p.1 2 ≤ 1 ∨ 100000000 ≤ ds.getD p.1 2)) := by
  simp [passesFilters, not_or]

/-- While enough room remains, the reduce appends the surviving
candidates in encounter order and never reaches the sorting branch. -/
theorem foldl_rank_under_capacity (rootIndex : Nat) (ds : List Int)
    (lim : Nat) (ps : List (Nat × Int)) :
    ∀ (acc : RankAcc) (hm : Nat → Option Node),
    acc.length = acc.leakPoint.length →
    acc.leakPoint.length + (ps.filter (passesFilters rootIndex ds)).length ≤ lim →
    (ps.foldl (rankStep rootIndex ds lim) (acc, hm)).1.leakPoint =
      acc.leakPoint ++
        (ps.filter (passesFilters rootIndex ds)).map (candidateOf hm) := by
  induction ps with
  | nil =>
    intro acc hm _ _
    simp
  | cons p ps ih =>
    intro acc hm hinv hcap
    by_cases hpass : passesFilters rootIndex ds p = true
    · obtain ⟨hroot, hfil⟩ := (passesFilters_iff rootIndex ds p).mp hpass
      have hfcons : (p :: ps).filter (passesFilters rootIndex ds) =
          p :: ps.filter (passesFilters rootIndex ds) := by
        rw [List.filter_cons, if_pos hpass]
      rw [hfcons] at hcap
      simp only [List.length_cons] at hcap
      have hlt : acc.length < lim := by omega
      rw [List.foldl_cons, rankStep_append _ _ _ _ _ hroot hfil hlt]
      rw [ih _ _ (by simp [hinv]) (by simp; omega)]
      rw [hfcons, candidateOf_annotate]
      simp [candidateOf, List.append_assoc]
    · have hfcons : (p :: ps).filter (passesFilters rootIndex ds) =
          ps.filter (passesFilters rootIndex ds) := by
        rw [List.filter_cons, if_neg (by simp [hpass])]
      rw [hfcons] at hcap
      have hpass' := hpass
      simp only [passesFilters_iff, not_and, not_not] at hpass'
      by_cases hroot : p.1 = rootIndex
      · rw [List.foldl_cons, rankStep_root _ _ _ _ _ hroot]
        rw [ih _ _ hinv hcap, hfcons, candidateOf_annotate]
      · rw [List.foldl_cons, rankStep_filtered _ _ _ _ _ hroot (hpass' hroot)]
        rw [ih _ _ hinv hcap, hfcons, candidateOf_annotate]

/-- Counterexample to claim C2: a capture whose two surviving
candidates arrive in ascending size order is returned unsorted (sizes
`[10, 1000]`), because no re-sort happens while the list is below
capacity. -/
theorem leak_list_not_sorted_cex :
    ¬ List.Pairwise (fun a b : LeakCandidate => b.size ≤ a.size)
      (fetchHeapUsage exHD [100, 10, 1000] [0, 2, 2] 5).leakPoint := by
  decide

/-- Claim C2 (amended): the returned candidate list is sorted
descending only as a side effect of a full-list re-sort; whenever at
most the (defaulted) limit of candidates survive the filters, the list
is returned exactly in first-seen encounter order, unsorted. -/
theorem rank_under_capacity_first_seen (rootIndex : Nat) (rs ds : List Int)
    (hm : Nat → Option Node) (limit : Nat)
    (hcap : (rs.enum.filter (passesFilters rootIndex ds)).length ≤
      (if limit = 0 then 5 else limit)) :
    (peakLeakPoint rootIndex rs ds hm limit).1.leakPoint =
      (rs.enum.filter (passesFilters rootIndex ds)).map (candidateOf hm) := by
  have key := foldl_rank_under_capacity rootIndex ds
    (if limit = 0 then 5 else limit) rs.enum
    { leakPoint := [], length := 0 } hm rfl (by simpa using hcap)
  simpa [peakLeakPoint] using key

/-- Witness for the amended C2 at a concrete capture. -/
theorem rank_under_capacity_first_seen_witness :
    (peakLeakPoint 0 [100, 10, 1000] [0, 2, 2]
        (handleHeapData exHD).heapMap 5).1.leakPoint =
      ((([100, 10, 1000] : List Int).enum).filter
        (passesFilters 0 [0, 2, 2])).map
          (candidateOf (handleHeapData exHD).heapMap) :=
  rank_under_capacity_first_seen 0 [100, 10, 1000] [0, 2, 2]
    (handleHeapData exHD).heapMap 5 (by decide)

/-! ## Claim C5: edgesMap bidirectional consistency -/

/-- Both directions of one decoded edge are present in an `edgesMap`:
the owner appears among the target's `from_ids` and the target among
the owner's `to_ids`, with the edge's type and label. -/
def edgeRegistered (em : String → EdgeInfo) (ownerId : String) (e : Edge) : Prop :=
  (({ id := ownerId, type := e.type, name_or_index := e.name_or_index } :
      AddressInfo) ∈ (em e.to_node).from_ids) ∧
  (({ id := e.to_node, type := e.type, name_or_index := e.name_or_index } :
      AddressInfo) ∈ (em ownerId).to_ids)

/-- Pushing a `from_ids` entry never changes any `to_ids` list. -/
theorem to_ids_pushFromInfo (em : String → EdgeInfo) (key : String)
    (info : AddressInfo) (k : String) :
    ((pushFromInfo em key info) k).to_ids = (em k).to_ids := by
  unfold pushFromInfo
  by_cases h : k = key
  · subst h
    simp
  · simp [h]

/-- Pushing a `to_ids` entry never changes any `from_ids` list. -/
theorem from_ids_pushToInfo (em : String → EdgeInfo) (key : String)
    (info : AddressInfo) (k : String) :
    ((pushToInfo em key info) k).from_ids = (em k).from_ids := by
  unfold pushToInfo
  by_cases h : k = key
  · subst h
    simp
  · simp [h]

/-- Pushing only appends: existing `from_ids` members survive. -/
theorem mem_from_ids_pushFromInfo (em : String → EdgeInfo) (key : String)
    (info : AddressInfo) (k : String) (x : AddressInfo)
    (h : x ∈ (em k).from_ids) :
    x ∈ ((pushFromInfo em key info) k).from_ids := by
  unfold pushFromInfo
  by_cases hk : k = key
  · subst hk
    simp [h]
  · simp [hk, h]

/-- Pushing only appends: existing `to_ids` members survive. -/
theorem mem_to_ids_pushToInfo (em : String → EdgeInfo) (key : String)
    (info : AddressInfo) (k : String) (x : AddressInfo)
    (h : x ∈ (em k).to_ids) :
    x ∈ ((pushToInfo em key info) k).to_ids := by
  unfold pushToInfo
  by_cases hk : k = key
  · subst hk
    simp [h]
  · simp [hk, h]

/-- The pushed `from_ids` entry is present afterwards. -/
theorem self_mem_pushFromInfo (em : String → EdgeInfo) (key : String)
    (info : AddressInfo) : info ∈ ((pushFromInfo em key info) key).from_ids := by
  simp [pushFromInfo]

/-- The pushed `to_ids` entry is present afterwards. -/
theorem self_mem_pushToInfo (em : String → EdgeInfo) (key : String)
    (info : AddressInfo) : info ∈ ((pushToInfo em key info) key).to_ids := by
  simp [pushToInfo]

/-- One edge iteration preserves every previously registered edge. -/
theorem edgeRegistered_edgeStep (strings et0 : List String) (nfl : Nat)
    (nodes : List Nat) (ownerId : String)
    (st : List Edge × (String → EdgeInfo)) (ne : List Nat)
    (o : String) (e : Edge) (h : edgeRegistered st.2 o e) :
    edgeRegistered (edgeStep strings et0 nfl nodes ownerId st ne).2 o e := by
  obtain ⟨h1, h2⟩ := h
  simp only [edgeStep]
  constructor
  · rw [from_ids_pushToInfo]
    exact mem_from_ids_pushFromInfo _ _ _ _ _ h1
  · apply mem_to_ids_pushToInfo
    rw [to_ids_pushFromInfo]
    exact h2

/-- One edge iteration registers the edge it decodes. -/
theorem edgeStep_registers (strings et0 : List String) (nfl : Nat)
    (nodes : List Nat) (ownerId : String)
    (st : List Edge × (String → EdgeInfo)) (ne : List Nat) :
    edgeRegistered (edgeStep strings et0 nfl nodes ownerId st ne).2 ownerId
      (decodeEdge strings et0 nfl nodes ne) := by
  simp only [edgeStep]
  constructor
  · rw [from_ids_pushToInfo]
    exact self_mem_pushFromInfo _ _ _
  · exact self_mem_pushToInfo _ _ _

/-- The inner edge fold preserves every previously registered edge. -/
theorem foldl_edgeStep_mono (strings et0 : List String) (nfl : Nat)
    (nodes : List Nat) (ownerId : String) (chunks : List (List Nat))
    (st : List Edge × (String → EdgeInfo)) (o : String) (e : Edge)
    (h : edgeRegistered st.2 o e) :
    edgeRegistered
      ((chunks.foldl (edgeStep strings et0 nfl nodes ownerId) st).2) o e :=
  foldl_preserves (fun b => edgeRegistered b.2 o e) _ chunks st h
    (fun b a hb => edgeRegistered_edgeStep strings et0 nfl nodes ownerId b a o e hb)

/-- After the inner edge fold, every accumulated child edge is
registered in the accumulated map. -/
theorem foldl_edgeStep_children (strings et0 : List String) (nfl : Nat)
    (nodes : List Nat) (ownerId : String) (chunks : List (List Nat))
    (st : List Edge × (String → EdgeInfo))
    (h : ∀ e ∈ st.1, edgeRegistered st.2 ownerId e) :
    ∀ e ∈ (chunks.foldl (edgeStep strings et0 nfl nodes ownerId) st).1,
      edgeRegistered
        ((chunks.foldl (edgeStep strings et0 nfl nodes ownerId) st).2)
        ownerId e := by
  refine foldl_preserves
    (fun b => ∀ e ∈ b.1, edgeRegistered b.2 ownerId e) _ chunks st h ?_
  intro b a hb e he
  simp only [edgeStep] at he
  rcases List.mem_append.mp he with he | he
  · exact edgeRegistered_edgeStep strings et0 nfl nodes ownerId b a ownerId e (hb e he)
  · rw [List.mem_singleton.mp he]
    exact edgeStep_registers strings et0 nfl nodes ownerId b a

/-- One node iteration preserves and extends edge registration. -/
theorem processNode_registered (strings nt0 et0 : List String)
    (nfl efl : Nat) (nodes edges : List Nat) (st : DecodeState)
    (node : List Nat)
    (h : ∀ nd ∈ st.heapArray, ∀ e ∈ nd.children,
      edgeRegistered st.edgesMap nd.id e) :
    ∀ nd ∈ (processNode strings nt0 et0 nfl efl nodes edges st node).heapArray,
      ∀ e ∈ nd.children,
        edgeRegistered
          (processNode strings nt0 et0 nfl efl nodes edges st node).edgesMap
          nd.id e := by
  intro nd hnd e he
  simp only [processNode, decodeNode] at hnd ⊢
  rcases List.mem_append.mp hnd with hnd | hnd
  · exact foldl_edgeStep_mono _ _ _ _ _ _ _ _ _ (h nd hnd e he)
  · rw [List.mem_singleton.mp hnd] at he ⊢
    exact foldl_edgeStep_children _ _ _ _ _ _ _
      (fun e he => absurd he (List.not_mem_nil e)) e he

/-- Claim C5: for every decoded edge of every decoded node, the
`edgesMap` is bidirectionally consistent — the entry keyed by the
target identity lists the owner in `from_ids` and the entry keyed by
the owner identity lists the target in `to_ids`, both with the edge's
type and label. -/
theorem edgesMap_bidirectional (heapData : HeapData) :
    ∀ nd ∈ (handleHeapData heapData).heapArray, ∀ e ∈ nd.children,
      (({ id := nd.id, type := e.type, name_or_index := e.name_or_index } :
          AddressInfo) ∈
        ((handleHeapData heapData).edgesMap e.to_node).from_ids) ∧
      (({ id := e.to_node, type := e.type, name_or_index := e.name_or_index } :
          AddressInfo) ∈
        ((handleHeapData heapData).edgesMap nd.id).to_ids) := by
  intro nd hnd e he
  simp only [handleHeapData] at hnd ⊢
  refine foldl_preserves
    (fun dst : DecodeState => ∀ nd ∈ dst.heapArray, ∀ e ∈ nd.children,
      edgeRegistered dst.edgesMap nd.id e)
    _ _ _ (fun nd h => absurd h (List.not_mem_nil nd))
    (fun b a hb => processNode_registered _ _ _ _ _ _ _ b a hb) nd hnd e he

/-- Witness for C5: the first edge of the first node of the example
capture is registered in both directions. -/
theorem edgesMap_bidirectional_witness :
    (({ id := ((handleHeapData exHD).heapArray.getD 0 default).id
        type := (((handleHeapData exHD).heapArray.getD 0
          default).children.getD 0 default).type
        name_or_index := (((handleHeapData exHD).heapArray.getD 0
          default).children.getD 0 default).name_or_index } : AddressInfo) ∈
      ((handleHeapData exHD).edgesMap
        (((handleHeapData exHD).heapArray.getD 0
          default).children.getD 0 default).to_node).from_ids) ∧
    (({ id := (((handleHeapData exHD).heapArray.getD 0
          default).children.getD 0 default).to_node
        type := (((handleHeapData exHD).heapArray.getD 0
          default).children.getD 0 default).type
        name_or_index := (((handleHeapData exHD).heapArray.getD 0
          default).children.getD 0 default).name_or_index } : AddressInfo) ∈
      ((handleHeapData exHD).edgesMap
        ((handleHeapData exHD).heapArray.getD 0 default).id).to_ids) :=
  edgesMap_bidirectional exHD ((handleHeapData exHD).heapArray.getD 0 default)
    (by decide)
    (((handleHeapData exHD).heapArray.getD 0 default).children.getD 0 default)
    (by decide)

/-! ## Claim C9: heapArray length and node indices -/

/-- Chunk count of the node loop. -/
theorem sliceStrides_length (stride : Nat) (l : List Nat) :
    (sliceStrides stride l).length = (l.length + stride - 1) / stride := by
  simp [sliceStrides]

/-- Every node iteration appends exactly one decoded node. -/
theorem foldl_processNode_heapArray_length (strings nt0 et0 : List String)
    (nfl efl : Nat) (nodes edges : List Nat) (cs : List (List Nat)) :
    ∀ st : DecodeState,
    ((cs.foldl (processNode strings nt0 et0 nfl efl nodes edges)
        st).heapArray).length = st.heapArray.length + cs.length := by
  induction cs with
  | nil =>
    intro st
    simp
  | cons c cs ih =>
    intro st
    rw [List.foldl_cons, ih]
    simp only [processNode, List.length_append, List.length_singleton,
      List.length_cons, List.length_nil]
    omega

/-- The decoded indices are the consecutive values `i / stride` of the
loop cursor. -/
theorem foldl_processNode_index_map (strings nt0 et0 : List String)
    (nfl efl : Nat) (nodes edges : List Nat) (hnfl : 0 < nfl)
    (cs : List (List Nat)) :
    ∀ st : DecodeState, nfl ∣ st.i →
    ((cs.foldl (processNode strings nt0 et0 nfl efl nodes edges)
        st).heapArray).map (fun nd => nd.index) =
      st.heapArray.map (fun nd => nd.index) ++
        List.range' (st.i / nfl) cs.length := by
  induction cs with
  | nil =>
    intro st _
    simp
  | cons c cs ih =>
    intro st hdvd
    have hdvd' : nfl ∣ (processNode strings nt0 et0 nfl efl nodes edges st c).i := by
      simp only [processNode]
      exact Nat.dvd_add hdvd (dvd_refl nfl)
    rw [List.foldl_cons, ih _ hdvd']
    have hdiv : (st.i + nfl) / nfl = st.i / nfl + 1 := Nat.add_div_right st.i hnfl
    simp only [processNode, decodeNode, List.map_append, List.map_cons,
      List.map_nil, hdiv, List.range'_succ]
    simp only [List.append_assoc, List.singleton_append, List.length_cons,
      List.range'_succ]

/-- Reading through `map` at an in-range position. -/
theorem getD_map_index (l : List Node) (k : Nat) (h : k < l.length) :
    (l.map (fun nd => nd.index)).getD k 0 = (l.getD k default).index := by
  rw [List.getD_eq_get _ _ (by simpa using h), List.getD_eq_get _ _ h]
  simp

/-- Reading `range'` at an in-range position. -/
theorem getD_range' (s n k : Nat) (h : k < n) :
    (List.range' s n).getD k 0 = s + k := by
  rw [List.getD_eq_get _ _ (by simpa using h)]
  rw [List.get_eq_getElem]
  simpa using List.getElem_range' k (by simpa using h)

/-- Claim C9: for every valid capture (nonempty `node_fields` whose
width divides the flat array length), `heapArray` holds exactly
`nodes.length / node_fields.length` nodes, one per stride, and each
node's `index` equals its position in the array. -/
theorem heapArray_length_and_index (heapData : HeapData)
    (hpos : 0 < heapData.snapshot.meta.node_fields.length)
    (hdvd : heapData.snapshot.meta.node_fields.length ∣ heapData.nodes.length) :
    (handleHeapData heapData).heapArray.length =
      heapData.nodes.length / heapData.snapshot.meta.node_fields.length ∧
    ∀ k, k < (handleHeapData heapData).heapArray.length →
      ((handleHeapData heapData).heapArray.getD k default).index = k := by
  obtain ⟨m, hm⟩ := hdvd
  have hcs : (sliceStrides heapData.snapshot.meta.node_fields.length
      heapData.nodes).length =
      heapData.nodes.length / heapData.snapshot.meta.node_fields.length := by
    rw [sliceStrides_length, hm]
    have h1 : heapData.snapshot.meta.node_fields.length * m +
        heapData.snapshot.meta.node_fields.length - 1 =
        (heapData.snapshot.meta.node_fields.length - 1) +
          heapData.snapshot.meta.node_fields.length * m := by omega
    rw [h1, Nat.add_mul_div_left _ _ hpos, Nat.div_eq_of_lt (by omega),
      Nat.zero_add, Nat.mul_div_cancel_left _ hpos]
  have hlen : (handleHeapData heapData).heapArray.length =
      heapData.nodes.length / heapData.snapshot.meta.node_fields.length := by
    simp only [handleHeapData]
    rw [foldl_processNode_heapArray_length]
    simp [hcs]
  refine ⟨hlen, ?_⟩
  intro k hk
  have hmap : (handleHeapData heapData).heapArray.map (fun nd => nd.index) =
      List.range' 0 ((handleHeapData heapData).heapArray.length) := by
    simp only [handleHeapData]
    rw [foldl_processNode_index_map _ _ _ _ _ _ _ hpos _ _ (dvd_zero _)]
    simp only [List.map_nil, List.nil_append, Nat.zero_div]
    rw [foldl_processNode_heapArray_length]
    simp
  have h1 := getD_map_index (handleHeapData heapData).heapArray k hk
  rw [hmap, getD_range' 0 _ k hk] at h1
  omega

/-- Witness for C9 at the example capture. -/
theorem heapArray_length_and_index_witness :
    (handleHeapData exHD).heapArray.length =
      exHD.nodes.length / exHD.snapshot.meta.node_fields.length ∧
    ∀ k, k < (handleHeapData exHD).heapArray.length →
      ((handleHeapData exHD).heapArray.getD k default).index = k :=
  heapArray_length_and_index exHD (by decide) (by decide)

/-! ## Claim C4: truncated edge arrays -/

/-- Every edge iteration appends exactly one decoded edge. -/
theorem foldl_edgeStep_length (strings et0 : List String) (nfl : Nat)
    (nodes : List Nat) (ownerId : String) (chunks : List (List Nat)) :
    ∀ st : List Edge × (String → EdgeInfo),
    (chunks.foldl (edgeStep strings et0 nfl nodes ownerId) st).1.length =
      st.1.length + chunks.length := by
  induction chunks with
  | nil =>
    intro st
    simp
  | cons c cs ih =>
    intro st
    rw [List.foldl_cons, ih]
    simp only [edgeStep, List.length_append, List.length_cons, List.length_nil,
      List.length_singleton]
    omega

/-- A one-node capture declaring 2 edges (span 6) over a 3-entry edge
array. -/
def ex4 : HeapData :=
  { snapshot := { meta := exMeta }
    nodes := [0, 0, 1, 0, 2, 0]
    edges := [2, 0, 0]
    strings := ["a"] }

/-- Counterexample to claim C4: on a capture whose declared edge span
exceeds the remaining edge array, `handleHeapData` does not fail — it
returns a graph whose node carries only the edges that were present
(1 child against a declared `edge_count` of 2). -/
theorem truncated_snapshot_no_error_cex :
    (handleHeapData ex4).heapArray.length = 1 ∧
    ((handleHeapData ex4).heapArray.getD 0 default).edge_count = 2 ∧
    ((handleHeapData ex4).heapArray.getD 0 default).children.length = 1 := by
  decide

/-- Claim C4 (amended): a node whose computed edge span exceeds the
remaining edge array raises no error; decoding continues, the slice is
clamped to the available entries (the node gets
`⌈remaining / edge_fields.length⌉ ≤ edge_count` children) and the
cursor still advances by the full declared span. -/
theorem truncated_span_clamps (strings nt0 et0 : List String)
    (nfl efl : Nat) (nodes edges : List Nat) (st : DecodeState)
    (node : List Nat) (hefl : 0 < efl)
    (hoff : st.offset ≤ edges.length)
    (hspan : edges.length - st.offset < node.getD 4 0 * efl) :
    ∃ nd : Node,
      (processNode strings nt0 et0 nfl efl nodes edges st node).heapArray =
        st.heapArray ++ [nd] ∧
      nd.edge_count = node.getD 4 0 ∧
      nd.children.length = (edges.length - st.offset + efl - 1) / efl ∧
      nd.children.length ≤ node.getD 4 0 ∧
      (processNode strings nt0 et0 nfl efl nodes edges st node).offset =
        st.offset + node.getD 4 0 * efl := by
  have hcount : ((sliceStrides efl
      ((edges.drop st.offset).take (node.getD 4 0 * efl))).foldl
        (edgeStep strings et0 nfl nodes (atString node 2))
        ([], st.edgesMap)).1.length =
      (edges.length - st.offset + efl - 1) / efl := by
    rw [foldl_edgeStep_length, sliceStrides_length]
    have hslice : ((edges.drop st.offset).take (node.getD 4 0 * efl)).length =
        edges.length - st.offset := by
      rw [List.length_take, List.length_drop]
      omega
    rw [hslice]
    simp
  have hmul : (node.getD 4 0 + 1) * efl = node.getD 4 0 * efl + efl := by ring
  have h5 : (edges.length - st.offset + efl - 1) / efl < node.getD 4 0 + 1 :=
    (Nat.div_lt_iff_lt_mul hefl).mpr (by omega)
  have hle : (edges.length - st.offset + efl - 1) / efl ≤ node.getD 4 0 := by
    omega
  exact ⟨_, rfl, rfl, hcount, le_of_eq_of_le hcount hle, rfl⟩

/-- Witness for the amended C4 on the truncated capture `ex4`. -/
theorem truncated_span_clamps_witness :
    ∃ nd : Node,
      (processNode ["a"] ["synthetic", "object"]
        ["context", "element", "property", "internal", "hidden", "shortcut",
          "weak"] 6 3 [0, 0, 1, 0, 2, 0] [2, 0, 0]
        { offset := 0, i := 0, heapMap := fun _ => none, heapArray := []
          edgesMap := fun _ => { from_ids := [], to_ids := [] } }
        [0, 0, 1, 0, 2, 0]).heapArray = [] ++ [nd] ∧
      nd.edge_count = 2 ∧
      nd.children.length = 1 ∧
      nd.children.length ≤ 2 ∧
      (processNode ["a"] ["synthetic", "object"]
        ["context", "element", "property", "internal", "hidden", "shortcut",
          "weak"] 6 3 [0, 0, 1, 0, 2, 0] [2, 0, 0]
        { offset := 0, i := 0, heapMap := fun _ => none, heapArray := []
          edgesMap := fun _ => { from_ids := [], to_ids := [] } }
        [0, 0, 1, 0, 2, 0]).offset = 0 + 2 * 3 :=
  truncated_span_clamps ["a"] ["synthetic", "object"]
    ["context", "element", "property", "internal", "hidden", "shortcut",
      "weak"] 6 3 [0, 0, 1, 0, 2, 0] [2, 0, 0]
    { offset := 0, i := 0, heapMap := fun _ => none, heapArray := []
      edgesMap := fun _ => { from_ids := [], to_ids := [] } }
    [0, 0, 1, 0, 2, 0] (by decide) (by decide) (by decide)

/-! ## Claim C6: edge label resolution -/

/-- The edge-type enumeration every real V8 snapshot declares in
`snapshot.meta.edge_types[0]` (order fixed by v8-profiler.h). -/
def v8EdgeTypeNames : List String :=
  ["context", "element", "property", "internal", "hidden", "shortcut", "weak"]

/-- Unfolded shape of one decoded edge record. -/
theorem decodeEdge_eval (strings et0 : List String) (nfl : Nat)
    (nodes : List Nat) (t n off : Nat) :
    decodeEdge strings et0 nfl nodes [t, n, off] =
      { index := off / nfl
        type := et0.getD t "undefined"
        name_or_index := if t = 1 ∨ t = 4
          then "[" ++ toString n ++ "]"
          else strings.getD n "undefined"
        to_node := atString nodes (off + 2) } := rfl

/-- Under the standard table, the decoded type string determines the
raw type value for the two bracketed kinds. -/
theorem v8_type_name_iff (t : Nat) :
    (v8EdgeTypeNames.getD t "undefined" = "element" ↔ t = 1) ∧
    (v8EdgeTypeNames.getD t "undefined" = "hidden" ↔ t = 4) := by
  by_cases h : t < 7
  · interval_cases t <;> decide
  · have hdef : v8EdgeTypeNames.getD t "undefined" = "undefined" :=
      List.getD_eq_default _ _ (by simp [v8EdgeTypeNames]; omega)
    rw [hdef]
    constructor
    · constructor
      · intro h'
        exact absurd h' (by decide)
      · intro h'
        omega
    · constructor
      · intro h'
        exact absurd h' (by decide)
      · intro h'
        omega

/-- Claim C6: whenever the snapshot declares the standard V8 edge-type
table, a decoded edge whose type is "element" or "hidden" carries the
bracketed literal of its raw name field as label, any other edge
carries the string-table entry at that field, and in particular an
"element" edge with raw name field 3 decodes to the literal "[3]". -/
theorem edge_label_resolution (strings et0 : List String) (nfl : Nat)
    (nodes : List Nat) (t n off : Nat) (htable : et0 = v8EdgeTypeNames) :
    (((decodeEdge strings et0 nfl nodes [t, n, off]).type = "element" ∨
      (decodeEdge strings et0 nfl nodes [t, n, off]).type = "hidden") →
      (decodeEdge strings et0 nfl nodes [t, n, off]).name_or_index =
        "[" ++ toString n ++ "]") ∧
    ((decodeEdge strings et0 nfl nodes [t, n, off]).type ≠ "element" ∧
      (decodeEdge strings et0 nfl nodes [t, n, off]).type ≠ "hidden" →
      (decodeEdge strings et0 nfl nodes [t, n, off]).name_or_index =
        strings.getD n "undefined") ∧
    (decodeEdge strings v8EdgeTypeNames nfl nodes [1, 3, off]).name_or_index =
      "[3]" := by
  subst htable
  obtain ⟨he, hh⟩ := v8_type_name_iff t
  rw [decodeEdge_eval]
  refine ⟨?_, ?_, ?_⟩
  · intro htyp
    have ht : t = 1 ∨ t = 4 := by
      rcases htyp with h | h
      · exact Or.inl (he.mp h)
      · exact Or.inr (hh.mp h)
    simp only [if_pos ht]
  · intro ⟨h1, h2⟩
    have ht : ¬(t = 1 ∨ t = 4) := by
      rintro (h | h)
      · exact h1 (he.mpr h)
      · exact h2 (hh.mpr h)
    simp only [if_neg ht]
  · rw [decodeEdge_eval]
    rfl

/-- Witness for C6: an element edge with raw name field 3. -/
theorem edge_label_resolution_witness :
    (decodeEdge ["a"] v8EdgeTypeNames 6 [] [1, 3, 0]).name_or_index = "[3]" :=
  (edge_label_resolution ["a"] v8EdgeTypeNames 6 [] 1 3 0 rfl).2.2

/-! ## Claim C7: root index and root identity -/

/-- A two-node capture declaring `root_index = 1`. -/
def ex7 : HeapData :=
  { snapshot := { meta := exMeta, root_index := some 1 }
    nodes := [0, 0, 101, 5, 0, 0, 0, 0, 202, 6, 0, 0]
    edges := []
    strings := ["root"] }

/-- Counterexample to claim C7: with `root_index = 1` the computed
`rootID` ("@5", read at flat offset `rootIndex + 2`) is not the
identity of the node whose canonical index is `rootIndex` ("@202"). -/
theorem root_id_mismatch_cex :
    (handleHeapData ex7).rootIndex = 1 ∧
    ¬ ((handleHeapData ex7).rootID =
      ((handleHeapData ex7).heapArray.getD (handleHeapData ex7).rootIndex
        default).id) := by
  decide

/-- The decoded identities are the `` `@${chunk[2]}` `` reads of the
visited strides, in order. -/
theorem foldl_processNode_id_map (strings nt0 et0 : List String)
    (nfl efl : Nat) (nodes edges : List Nat) (cs : List (List Nat)) :
    ∀ st : DecodeState,
    ((cs.foldl (processNode strings nt0 et0 nfl efl nodes edges)
        st).heapArray).map (fun nd => nd.id) =
      st.heapArray.map (fun nd => nd.id) ++ cs.map (fun c => atString c 2) := by
  induction cs with
  | nil =>
    intro st
    simp
  | cons c cs ih =>
    intro st
    rw [List.foldl_cons, ih]
    simp only [processNode, decodeNode, List.map_append, List.map_cons,
      List.map_nil, List.append_assoc, List.singleton_append]

/-- Reading an identity through `map` at an in-range position. -/
theorem getD_map_id (l : List Node) (k : Nat) (h : k < l.length) :
    (l.map (fun nd => nd.id)).getD k "" = (l.getD k default).id := by
  rw [List.getD_eq_get _ _ (by simpa using h), List.getD_eq_get _ _ h]
  simp

/-- Claim C7 (amended): `rootIndex` comes from the snapshot's declared
`root_index` (default 0 when absent or falsy), and `rootID` is read at
flat offset `rootIndex + 2` of the `nodes` array — which is the id
field of the node at canonical index `rootIndex` only when
`rootIndex = 0` (then it coincides with the first decoded node's
identity). -/
theorem root_resolution (hd : HeapData) :
    ((handleHeapData hd).rootIndex = hd.snapshot.root_index.getD 0) ∧
    ((handleHeapData hd).rootID =
      atString hd.nodes ((handleHeapData hd).rootIndex + 2)) ∧
    (hd.snapshot.root_index.getD 0 = 0 →
      3 ≤ hd.snapshot.meta.node_fields.length →
      hd.nodes ≠ [] →
      (handleHeapData hd).rootID =
        ((handleHeapData hd).heapArray.getD (handleHeapData hd).rootIndex
          default).id) := by
  refine ⟨rfl, rfl, ?_⟩
  intro hr h3 hne
  have hnfl : 0 < hd.snapshot.meta.node_fields.length := by omega
  have hpos : 0 < hd.nodes.length := List.length_pos.mpr hne
  have hcslen : 0 < (sliceStrides hd.snapshot.meta.node_fields.length
      hd.nodes).length := by
    rw [sliceStrides_length]
    exact (Nat.one_le_div_iff hnfl).mpr (by omega)
  have hlen : 0 < (handleHeapData hd).heapArray.length := by
    simp only [handleHeapData]
    rw [foldl_processNode_heapArray_length]
    simpa using hcslen
  have hmap : (handleHeapData hd).heapArray.map (fun nd => nd.id) =
      (sliceStrides hd.snapshot.meta.node_fields.length hd.nodes).map
        (fun c => atString c 2) := by
    simp only [handleHeapData]
    rw [foldl_processNode_id_map]
    simp
  have hid := getD_map_id (handleHeapData hd).heapArray 0 hlen
  rw [hmap] at hid
  have hcs0 : ((sliceStrides hd.snapshot.meta.node_fields.length
      hd.nodes).map (fun c => atString c 2)).getD 0 "" =
      atString (hd.nodes.take hd.snapshot.meta.node_fields.length) 2 := by
    rw [List.getD_eq_get _ _ (by simpa using hcslen)]
    simp [sliceStrides]
  have htake : atString
      (hd.nodes.take hd.snapshot.meta.node_fields.length) 2 =
      atString hd.nodes 2 := by
    unfold atString
    rw [List.get?_take (by omega)]
  have hrid : (handleHeapData hd).rootID = atString hd.nodes 2 := by
    show atString hd.nodes (hd.snapshot.root_index.getD 0 + 2) =
      atString hd.nodes 2
    rw [hr]
  have hri0 : (handleHeapData hd).rootIndex = 0 := hr
  rw [hri0, hrid, ← hid, hcs0, htake]

/-- Witness for the amended C7 on the example capture (absent
`root_index`). -/
theorem root_resolution_witness :
    (handleHeapData exHD).rootIndex = exHD.snapshot.root_index.getD 0 ∧
    (handleHeapData exHD).rootID =
      ((handleHeapData exHD).heapArray.getD (handleHeapData exHD).rootIndex
        default).id :=
  ⟨(root_resolution exHD).1,
    (root_resolution exHD).2.2 (by decide) (by decide) (by decide)⟩

/-! ## Claim C8: declared field order versus fixed positions -/

/-- Modelled from the spec: FieldSchema resolution of a named column —
the value of field `fname` in a node record is the entry at the
position `node_fields` declares for that name.  This follows the
spec's words and exists for comparison with the source's fixed-position
reads. -/
def fieldColumn (node_fields : List String) (fname : String)
    (node : List Nat) : Nat :=
  node.getD (List.indexOf fname node_fields) 0

/-- The standard V8 node field declaration. -/
def standardNodeFields : List String :=
  ["type", "name", "id", "self_size", "edge_count", "trace_node_id"]

/-- A capture declaring the order name,type,... (first two columns
swapped). -/
def ex8 : HeapData :=
  { snapshot := { meta :=
      { node_fields := ["name", "type", "id", "self_size", "edge_count",
          "trace_node_id"]
        node_types := [["T0", "T1"]]
        edge_fields := ["type", "name_or_index", "to_node"]
        edge_types := [["context", "element", "property", "internal",
          "hidden", "shortcut", "weak"]] } }
    nodes := [1, 0, 7, 9, 0, 0]
    edges := []
    strings := ["s0", "s1"] }

/-- Counterexample to claim C8: when `node_fields` declares the name
column first, decode still reads the name from position 1 ("s0"),
not from the declared "name" column ("s1"). -/
theorem field_order_ignored_cex :
    ((handleHeapData ex8).heapArray.getD 0 default).name = "s0" ∧
    ex8.strings.getD
      (fieldColumn ex8.snapshot.meta.node_fields "name" (ex8.nodes.take 6))
      "undefined" = "s1" ∧
    ¬ (((handleHeapData ex8).heapArray.getD 0 default).name =
      ex8.strings.getD
        (fieldColumn ex8.snapshot.meta.node_fields "name"
          (ex8.nodes.take 6)) "undefined") := by
  decide

/-- Claim C8 (amended): decode reads node fields at the fixed
positions 0..5 (type, name, id, self_size, edge_count, trace_node_id),
consulting `node_fields` only for its length; this agrees with the
declared-order resolution exactly when `node_fields` declares the
standard order. -/
theorem node_fields_fixed_positions (strings nt0 : List String)
    (descIndex : Nat) (node : List Nat) (children : List Edge)
    (node_fields : List String) (hstd : node_fields = standardNodeFields)
    (hlen : 6 ≤ node.length) :
    (decodeNode strings nt0 descIndex node children).type =
      nt0.getD (fieldColumn node_fields "type" node) "undefined" ∧
    (decodeNode strings nt0 descIndex node children).name =
      strings.getD (fieldColumn node_fields "name" node) "undefined" ∧
    (decodeNode strings nt0 descIndex node children).id =
      "@" ++ toString (fieldColumn node_fields "id" node) ∧
    (decodeNode strings nt0 descIndex node children).self_size =
      fieldColumn node_fields "self_size" node ∧
    (decodeNode strings nt0 descIndex node children).edge_count =
      fieldColumn node_fields "edge_count" node ∧
    (decodeNode strings nt0 descIndex node children).trace_node_id =
      fieldColumn node_fields "trace_node_id" node := by
  subst hstd
  have hid : atString node 2 = "@" ++ toString (node.getD 2 0) := by
    unfold atString
    rw [List.get?_eq_get (show 2 < node.length by omega),
      List.getD_eq_get _ _ (show 2 < node.length by omega)]
  exact ⟨rfl, rfl, hid, rfl, rfl, rfl⟩

/-- Witness for the amended C8 under the standard field order. -/
theorem node_fields_fixed_positions_witness :
    (decodeNode ["s0", "s1"] ["T0", "T1"] 0 [0, 1, 7, 9, 0, 0] []).type =
      (["T0", "T1"] : List String).getD
        (fieldColumn standardNodeFields "type" [0, 1, 7, 9, 0, 0])
        "undefined" ∧
    (decodeNode ["s0", "s1"] ["T0", "T1"] 0 [0, 1, 7, 9, 0, 0] []).name =
      (["s0", "s1"] : List String).getD
        (fieldColumn standardNodeFields "name" [0, 1, 7, 9, 0, 0])
        "undefined" ∧
    (decodeNode ["s0", "s1"] ["T0", "T1"] 0 [0, 1, 7, 9, 0, 0] []).id =
      "@" ++ toString (fieldColumn standardNodeFields "id"
        [0, 1, 7, 9, 0, 0]) ∧
    (decodeNode ["s0", "s1"] ["T0", "T1"] 0 [0, 1, 7, 9, 0, 0] []).self_size =
      fieldColumn standardNodeFields "self_size" [0, 1, 7, 9, 0, 0] ∧
    (decodeNode ["s0", "s1"] ["T0", "T1"] 0 [0, 1, 7, 9, 0, 0] []).edge_count =
      fieldColumn standardNodeFields "edge_count" [0, 1, 7, 9, 0, 0] ∧
    (decodeNode ["s0", "s1"] ["T0", "T1"] 0
        [0, 1, 7, 9, 0, 0] []).trace_node_id =
      fieldColumn standardNodeFields "trace_node_id" [0, 1, 7, 9, 0, 0] :=
  node_fields_fixed_positions ["s0", "s1"] ["T0", "T1"] 0 [0, 1, 7, 9, 0, 0]
    [] standardNodeFields rfl (by decide)
